import Mathlib

/-!
Verification of the Silo Finance balance-reconstruction module
(utils/silo_finance.py).

The module replays ERC-20 style transfer events of a lending-market share
token, folding them into a running balance map (address to amount) and
converting share amounts to asset amounts through a per-block supply index.

Embedding conventions:
- A Python dict is modelled as an association list with first-match lookup
  and in-place update (dictGet, dictSet); insertion order is preserved,
  matching Python semantics. deepcopy is value copying, which in a pure
  model is the identity on values and severs all aliasing.
- Python float arithmetic is modelled over the rationals; the builtin
  round(x, 6) is modelled as exact decimal rounding half-to-even (pyRound),
  which agrees with the float behaviour on the values in the claims.
- External chain collaborators (the two event-log sources consumed by
  fetch_transfers and the contract call behind fetch_supply_index), the
  market start block from the integration configuration, and the constant
  PAGINATION_SIZE from constants/silo_finance.py (not part of the sources)
  are parameters gathered into a SiloEnv record.
- Fallible control flow is modelled with Option: the unguarded tuple
  unpacking of a possible None in get_block_balances is a none result.
-/

/-- First-match lookup in an association list (Python: d[k], k in d). -/
def dictGet {α β : Type} [DecidableEq α] : List (α × β) → α → Option β
  | [], _ => none
  | (k, v) :: rest, a => if k = a then some v else dictGet rest a

/-- In-place update of the first binding, or append (Python: d[k] = v). -/
def dictSet {α β : Type} [DecidableEq α] : List (α × β) → α → β → List (α × β)
  | [], a, w => [(a, w)]
  | (k, v) :: rest, a, w => if k = a then (a, w) :: rest else (k, v) :: dictSet rest a w

/-- The keys of an association list, in insertion order. -/
def dictKeys {α β : Type} (d : List (α × β)) : List α := d.map Prod.fst

/-- Round a rational to the nearest integer, ties to even: the rounding mode
of the Python builtin round. -/
def roundHalfEven (q : ℚ) : ℤ :=
  let f : ℤ := ⌊q⌋
  if q - f < 1 / 2 then f
  else if 1 / 2 < q - f then f + 1
  else if f % 2 = 0 then f else f + 1

/-- ROUND_DECIMALS constant (source line 169). -/
def ROUND_DECIMALS : ℕ := 6

/-- Python round(x, ROUND_DECIMALS) on the rational model: round half to
even at six fractional decimal digits. -/
def pyRound (q : ℚ) : ℚ :=
  (roundHalfEven (q * 10 ^ ROUND_DECIMALS) : ℚ) / 10 ^ ROUND_DECIMALS

/-- Checksummed addresses are modelled as strings. -/
abbrev Addr : Type := String

/-- The all-zero null address (source line 173). -/
def NULL_ADDRESS : Addr := "0x0000000000000000000000000000000000000000"

/-- is_null_address (source lines 172-173). -/
def is_null_address (address : Addr) : Bool := address = NULL_ADDRESS

/-- A balance map, Dict[ChecksumAddress, float] in the source. -/
abbrev Bals : Type := List (Addr × ℚ)

/-- add_to_bals (source lines 176-185), step for step: ensure the key is
present, add the rounded increment, round the running total. -/
def add_to_bals (bals : Bals) (address : Addr) (value : ℚ) (decimals : ℕ) : Bals :=
  let bals := if (dictGet bals address).isNone then dictSet bals address 0 else bals
  let bals := dictSet bals address
    ((dictGet bals address).getD 0 + pyRound (value / 10 ^ decimals))
  dictSet bals address (pyRound ((dictGet bals address).getD 0))

/-- subtract_from_bals (source lines 188-200), step for step: ensure the key
is present, subtract the rounded decrement, clamp a negative result to zero,
round the running total. -/
def subtract_from_bals (bals : Bals) (address : Addr) (value : ℚ) (decimals : ℕ) : Bals :=
  let bals := if (dictGet bals address).isNone then dictSet bals address 0 else bals
  let bals := dictSet bals address
    ((dictGet bals address).getD 0 - pyRound (value / 10 ^ decimals))
  let bals := if (dictGet bals address).getD 0 < 0 then dictSet bals address 0 else bals
  dictSet bals address (pyRound ((dictGet bals address).getD 0))

/-- A transfer event: the fields of transfer.args read by the module. The
field from is renamed from_ because from is reserved in Lean; to is renamed
to_ for the same reason. -/
structure Transfer where
  from_ : Addr
  to_ : Addr
  value : ℕ
deriving DecidableEq, Repr

/-- process_transfer_event (source lines 132-166), branch for branch. Note
that in the final branch (neither address null) the source calls add_to_bals
on the SENDER and subtract_from_bals on the RECEIVER. -/
def process_transfer_event (transfer : Transfer) (bals : Bals) (supply_index : ℚ) : Bals :=
  let sender := transfer.from_
  let receiver := transfer.to_
  let value := transfer.value
  if is_null_address sender then
    add_to_bals bals receiver ((value : ℚ) * supply_index) 18
  else if is_null_address receiver then
    subtract_from_bals bals sender ((value : ℚ) * supply_index) 18
  else
    subtract_from_bals
      (add_to_bals bals sender ((value : ℚ) * supply_index) 18)
      receiver ((value : ℚ) * supply_index) 18

/-- The environment of external collaborators and configuration consumed by
get_block_balances. supply_index models fetch_supply_index (source lines
95-107, a read-only contract call at a block height); transfersNB and
transfersB model the two event-log sources consumed by fetch_transfers
(source lines 109-130); start_block is the configured market start block
from the integration configuration; PAGINATION_SIZE models the constant of
the same name imported from constants/silo_finance.py, which is not among
the sources (the spec describes it only as a fixed page size constant, so
it is kept abstract here). -/
structure SiloEnv where
  supply_index : ℕ → ℚ
  transfersNB : ℕ → ℕ → List Transfer
  transfersB : ℕ → ℕ → List Transfer
  start_block : ℕ
  PAGINATION_SIZE : ℕ

/-- fetch_transfers (source lines 109-130): the non-borrowable token events
followed by the borrowable token events, in source order. -/
def fetch_transfers (env : SiloEnv) (from_block : ℕ) (to_block : ℕ) : List Transfer :=
  env.transfersNB from_block to_block ++ env.transfersB from_block to_block

/-- The inner for-loop of get_block_balances (source lines 69-74): fold
process_transfer_event over a list of fetched transfers. -/
def applyTransfers (transfers : List Transfer) (bals : Bals) (supply_index : ℚ) : Bals :=
  transfers.foldl (fun b t => process_transfer_event t b supply_index) bals

/-- The while-loop of get_block_balances (source lines 63-78), structurally
recursive on explicit fuel. Alongside the final balances it records the
inclusive block range of every page fetched, for reasoning about the
pagination. The wrapper pageLoop supplies fuel equal to the loop measure
block + 1 - start, which the adequacy argument in pageLoopAux_spec shows is
always sufficient. -/
def pageLoopAux (env : SiloEnv) (supply_index : ℚ) :
    ℕ → Bals → ℕ → ℕ → Bals × List (ℕ × ℕ)
  | 0, bals, _, _ => (bals, [])
  | fuel + 1, bals, start, block =>
    if start ≤ block then
      let to_block := min (start + env.PAGINATION_SIZE) block
      let r := pageLoopAux env supply_index fuel
        (applyTransfers (fetch_transfers env start to_block) bals supply_index)
        (to_block + 1) block
      (r.1, (start, to_block) :: r.2)
    else (bals, [])

/-- The while-loop of get_block_balances (source lines 63-78) with the fuel
instantiated to the loop measure. -/
def pageLoop (env : SiloEnv) (supply_index : ℚ) (bals : Bals) (start : ℕ) (block : ℕ) :
    Bals × List (ℕ × ℕ) :=
  pageLoopAux env supply_index (block + 1 - start) bals start block

/-- The cache type, Dict[int, Dict[ChecksumAddress, float]] in the source. -/
abbrev Cache : Type := List (ℕ × Bals)

/-- The scan inside find_closest_cached_data (source lines 90-93): walk the
descending key list and return the first key below the target together with
its snapshot (deepcopied in the source; value copying here). -/
def findFirstBelow (cached_data : Cache) (block : ℕ) : List ℕ → Option (ℕ × Bals)
  | [] => none
  | existing_block :: rest =>
    if existing_block < block then
      some (existing_block, (dictGet cached_data existing_block).getD [])
    else findFirstBelow cached_data block rest

/-- find_closest_cached_data (source lines 83-93): sort the cached keys in
descending order and return the first (hence largest) key strictly below
the target, with its snapshot; None when no key is below the target. -/
def find_closest_cached_data (block : ℕ) (cached_data : Cache) : Option (ℕ × Bals) :=
  findFirstBelow cached_data block
    (List.insertionSort (· ≥ ·) (dictKeys cached_data))

/-- The per-block for-loop of get_block_balances (source lines 50-80).
When the working cache copy is non-empty, the source unpacks the result of
find_closest_cached_data without a None check; a None there raises a
TypeError, modelled as a none result for the whole call. -/
def blocksLoop (env : SiloEnv) : List ℕ → Cache → Cache → Option Cache
  | [], _, new_block_data => some new_block_data
  | block :: rest, cache_copy, new_block_data =>
    let step : Option (ℕ × Bals) :=
      if cache_copy.isEmpty then some (env.start_block, [])
      else
        match find_closest_cached_data block cache_copy with
        | none => none
        | some (prev_block, bals) => some (prev_block + 1, bals)
    match step with
    | none => none
    | some (start, bals) =>
      let supply_index := env.supply_index block
      let bals := (pageLoop env supply_index bals start block).1
      blocksLoop env rest (dictSet cache_copy block bals) (dictSet new_block_data block bals)

/-- get_block_balances (source lines 38-81): empty input short-circuits to
an empty result; otherwise the requested blocks are processed in ascending
order against a defensive copy of the cache. -/
def get_block_balances (env : SiloEnv) (cached_data : Cache) (blocks : List ℕ) :
    Option Cache :=
  if blocks.isEmpty then some []
  else blocksLoop env (List.insertionSort (· ≤ ·) blocks) cached_data []

/-- get_block_balances together with the observable post-call value of the
caller-owned cached_data argument. The only use the source makes of
cached_data is the deepcopy on line 49; every later write targets the copy
(line 80) or balance dicts derived from it, so the caller-owned mapping is
the unchanged input. -/
def get_block_balances_full (env : SiloEnv) (cached_data : Cache) (blocks : List ℕ) :
    Option Cache × Cache :=
  (get_block_balances env cached_data blocks, cached_data)

/-- All balances stored in a map are non-negative. -/
def BalsNonneg (bals : Bals) : Prop := ∀ p ∈ bals, 0 ≤ p.2

theorem dictGet_dictSet_self {α β : Type} [DecidableEq α] (d : List (α × β)) (k : α) (v : β) :
    dictGet (dictSet d k v) k = some v := by
  induction d with
  | nil => simp [dictGet, dictSet]
  | cons p rest ih =>
    by_cases h : p.1 = k
    · simp [dictGet, dictSet, h]
    · simpa [dictGet, dictSet, h] using ih

theorem dictGet_dictSet_ne {α β : Type} [DecidableEq α] (d : List (α × β)) (k a : α) (v : β)
    (h : k ≠ a) : dictGet (dictSet d a v) k = dictGet d k := by
  induction d with
  | nil => simp [dictGet, dictSet, h.symm]
  | cons p rest ih =>
    by_cases hp : p.1 = a
    · simp [dictGet, dictSet, hp, h.symm]
    · simp only [dictSet, hp, if_false]
      by_cases hk : p.1 = k
      · simp [dictGet, hk]
      · simpa [dictGet, hk] using ih

theorem dictSet_dictSet {α β : Type} [DecidableEq α] (d : List (α × β)) (k : α) (v w : β) :
    dictSet (dictSet d k v) k w = dictSet d k w := by
  induction d with
  | nil => simp [dictSet]
  | cons p rest ih =>
    by_cases h : p.1 = k
    · simp [dictSet, h]
    · simp [dictSet, h, ih]

theorem dictGet_mem {α β : Type} [DecidableEq α] {d : List (α × β)} {k : α} {v : β}
    (h : dictGet d k = some v) : (k, v) ∈ d := by
  induction d with
  | nil => simp [dictGet] at h
  | cons p rest ih =>
    by_cases hp : p.1 = k
    · simp only [dictGet, hp, if_pos] at h
      cases h
      have hkp : (k, p.2) = p := by rw [← hp]
      rw [hkp]
      exact List.mem_cons_self _ _
    · simp only [dictGet, hp, if_neg, not_false_iff] at h
      exact List.mem_cons_of_mem _ (ih h)

theorem dictGet_isSome_of_mem_keys {α β : Type} [DecidableEq α] {d : List (α × β)} {k : α}
    (h : k ∈ dictKeys d) : ∃ v, dictGet d k = some v := by
  induction d with
  | nil => simp [dictKeys] at h
  | cons p rest ih =>
    by_cases hp : p.1 = k
    · exact ⟨p.2, by simp [dictGet, hp]⟩
    · have : k ∈ dictKeys rest := by
        rcases (by simpa [dictKeys] using h) with h1 | h1
        · exact absurd h1.symm hp
        · simpa [dictKeys] using h1
      simpa [dictGet, hp] using ih this

theorem roundHalfEven_intCast (n : ℤ) : roundHalfEven (n : ℚ) = n := by
  simp only [roundHalfEven, Int.floor_intCast, sub_self]
  norm_num

theorem roundHalfEven_nonneg {q : ℚ} (h : 0 ≤ q) : 0 ≤ roundHalfEven q := by
  have hf : (0:ℤ) ≤ ⌊q⌋ := Int.floor_nonneg.mpr h
  simp only [roundHalfEven]
  split_ifs <;> omega

theorem pyRound_nonneg {q : ℚ} (h : 0 ≤ q) : 0 ≤ pyRound q := by
  unfold pyRound
  have h1 : (0:ℚ) ≤ q * 10 ^ ROUND_DECIMALS := by positivity
  have h2 : (0:ℚ) ≤ (roundHalfEven (q * 10 ^ ROUND_DECIMALS) : ℚ) := by
    exact_mod_cast roundHalfEven_nonneg h1
  positivity

theorem pyRound_intCast (n : ℤ) : pyRound (n : ℚ) = n := by
  unfold pyRound
  have h : ((n:ℚ)) * 10 ^ ROUND_DECIMALS = ((n * 10 ^ ROUND_DECIMALS : ℤ) : ℚ) := by
    push_cast
    ring
  rw [h, roundHalfEven_intCast]
  push_cast
  rw [mul_div_assoc]
  norm_num

theorem pyRound_zero : pyRound 0 = 0 := by
  have := pyRound_intCast 0
  simpa using this

theorem pyRound_one : pyRound 1 = 1 := by
  have := pyRound_intCast 1
  simpa using this

theorem add_to_bals_eq (bals : Bals) (a : Addr) (v : ℚ) (dec : ℕ) :
    add_to_bals bals a v dec
      = dictSet bals a (pyRound ((dictGet bals a).getD 0 + pyRound (v / 10 ^ dec))) := by
  unfold add_to_bals
  cases hg : dictGet bals a with
  | none =>
    simp only [hg, Option.isNone_none, if_pos, Option.getD_none,
      dictGet_dictSet_self, Option.getD_some, dictSet_dictSet]
  | some x =>
    simp only [hg, Option.isNone_some, Bool.false_eq_true, if_false, Option.getD_some,
      dictGet_dictSet_self, dictSet_dictSet]

theorem subtract_from_bals_eq (bals : Bals) (a : Addr) (v : ℚ) (dec : ℕ) :
    subtract_from_bals bals a v dec
      = dictSet bals a
          (pyRound (if (dictGet bals a).getD 0 - pyRound (v / 10 ^ dec) < 0 then 0
                    else (dictGet bals a).getD 0 - pyRound (v / 10 ^ dec))) := by
  unfold subtract_from_bals
  cases hg : dictGet bals a with
  | none =>
    by_cases hlt : (0:ℚ) - pyRound (v / 10 ^ dec) < 0
    · simp only [hg, Option.isNone_none, if_pos, Option.getD_none,
        dictGet_dictSet_self, Option.getD_some, dictSet_dictSet, hlt, if_true]
    · simp only [hg, Option.isNone_none, if_pos, Option.getD_none,
        dictGet_dictSet_self, Option.getD_some, dictSet_dictSet, hlt, if_false]
  | some x =>
    by_cases hlt : x - pyRound (v / 10 ^ dec) < 0
    · simp only [hg, Option.isNone_some, Bool.false_eq_true, if_false, Option.getD_some,
        dictGet_dictSet_self, dictSet_dictSet, hlt, if_true]
    · simp only [hg, Option.isNone_some, Bool.false_eq_true, if_false, Option.getD_some,
        dictGet_dictSet_self, dictSet_dictSet, hlt]

theorem BalsNonneg_dictSet {d : Bals} {a : Addr} {v : ℚ}
    (hd : BalsNonneg d) (hv : 0 ≤ v) : BalsNonneg (dictSet d a v) := by
  induction d with
  | nil =>
    intro p hp
    simp only [dictSet, List.mem_singleton] at hp
    simp [hp, hv]
  | cons q rest ih =>
    have hq : 0 ≤ q.2 := hd q (List.mem_cons_self _ _)
    have hrest : BalsNonneg rest := fun p hp => hd p (List.mem_cons_of_mem _ hp)
    intro p hp
    by_cases h : q.1 = a
    · simp only [dictSet, h, if_pos, List.mem_cons] at hp
      rcases hp with hp | hp
      · simp [hp, hv]
      · exact hrest p hp
    · simp only [dictSet, h, if_false, List.mem_cons] at hp
      rcases hp with hp | hp
      · simp [hp, hq]
      · exact ih hrest p hp

theorem BalsNonneg_getD {d : Bals} (hd : BalsNonneg d) (a : Addr) :
    0 ≤ (dictGet d a).getD 0 := by
  cases hg : dictGet d a with
  | none => simp
  | some x => simpa using hd (a, x) (dictGet_mem hg)

theorem add_to_bals_nonneg {d : Bals} {a : Addr} {v : ℚ} {dec : ℕ}
    (hd : BalsNonneg d) (hv : 0 ≤ v) : BalsNonneg (add_to_bals d a v dec) := by
  rw [add_to_bals_eq]
  refine BalsNonneg_dictSet hd (pyRound_nonneg ?_)
  have h1 : 0 ≤ (dictGet d a).getD 0 := BalsNonneg_getD hd a
  have h2 : 0 ≤ pyRound (v / 10 ^ dec) := pyRound_nonneg (by positivity)
  linarith

theorem subtract_from_bals_nonneg {d : Bals} {a : Addr} {v : ℚ} {dec : ℕ}
    (hd : BalsNonneg d) : BalsNonneg (subtract_from_bals d a v dec) := by
  rw [subtract_from_bals_eq]
  refine BalsNonneg_dictSet hd (pyRound_nonneg ?_)
  split_ifs with h
  · exact le_refl 0
  · linarith [not_lt.mp h]

theorem process_transfer_event_nonneg {d : Bals} {si : ℚ} (t : Transfer)
    (hd : BalsNonneg d) (hsi : 0 ≤ si) : BalsNonneg (process_transfer_event t d si) := by
  have hv : 0 ≤ ((t.value : ℚ)) * si := mul_nonneg (Nat.cast_nonneg _) hsi
  simp only [process_transfer_event]
  split_ifs
  · exact add_to_bals_nonneg hd hv
  · exact subtract_from_bals_nonneg hd
  · exact subtract_from_bals_nonneg (add_to_bals_nonneg hd hv)

theorem applyTransfers_nonneg {si : ℚ} (ts : List Transfer) {d : Bals}
    (hd : BalsNonneg d) (hsi : 0 ≤ si) : BalsNonneg (applyTransfers ts d si) := by
  induction ts generalizing d with
  | nil => exact hd
  | cons t rest ih => exact ih (process_transfer_event_nonneg t hd hsi)

theorem subtract_from_bals_clamp {d : Bals} {a : Addr} {v : ℚ} {dec : ℕ}
    (h : (dictGet d a).getD 0 - pyRound (v / 10 ^ dec) < 0) :
    dictGet (subtract_from_bals d a v dec) a = some 0 := by
  rw [subtract_from_bals_eq, dictGet_dictSet_self, if_pos h, pyRound_zero]

theorem pageLoopAux_spec (env : SiloEnv) (si : ℚ) :
    ∀ (fuel : ℕ) (bals : Bals) (start block : ℕ), block + 1 - start ≤ fuel →
      (((pageLoopAux env si fuel bals start block).2.map
          (fun p => List.range' p.1 (p.2 + 1 - p.1))).flatten
          = List.range' start (block + 1 - start))
      ∧ ∀ p ∈ (pageLoopAux env si fuel bals start block).2,
          p.1 ≤ p.2 ∧ p.2 - p.1 ≤ env.PAGINATION_SIZE := by
  intro fuel
  induction fuel with
  | zero =>
    intro bals start block h
    have h0 : block + 1 - start = 0 := Nat.le_zero.mp h
    simp [pageLoopAux, h0]
  | succ n ih =>
    intro bals start block h
    by_cases hsb : start ≤ block
    · have hto1 : start ≤ min (start + env.PAGINATION_SIZE) block :=
        le_min (Nat.le_add_right _ _) hsb
      have hto2 : min (start + env.PAGINATION_SIZE) block ≤ block := min_le_right _ _
      have hto3 : min (start + env.PAGINATION_SIZE) block ≤ start + env.PAGINATION_SIZE :=
        min_le_left _ _
      have hfuel : block + 1 - (min (start + env.PAGINATION_SIZE) block + 1) ≤ n := by omega
      obtain ⟨ih1, ih2⟩ := ih
        (applyTransfers
          (fetch_transfers env start (min (start + env.PAGINATION_SIZE) block)) bals si)
        (min (start + env.PAGINATION_SIZE) block + 1) block hfuel
      simp only [pageLoopAux, if_pos hsb, List.map_cons, List.flatten_cons, List.mem_cons]
      constructor
      · rw [ih1]
        have hs : start + (min (start + env.PAGINATION_SIZE) block + 1 - start)
            = min (start + env.PAGINATION_SIZE) block + 1 := by omega
        have hn : (min (start + env.PAGINATION_SIZE) block + 1 - start)
            + (block + 1 - (min (start + env.PAGINATION_SIZE) block + 1))
            = block + 1 - start := by omega
        calc List.range' start (min (start + env.PAGINATION_SIZE) block + 1 - start)
              ++ List.range' (min (start + env.PAGINATION_SIZE) block + 1)
                  (block + 1 - (min (start + env.PAGINATION_SIZE) block + 1))
            = List.range' start (min (start + env.PAGINATION_SIZE) block + 1 - start)
              ++ List.range' (start + (min (start + env.PAGINATION_SIZE) block + 1 - start))
                  (block + 1 - (min (start + env.PAGINATION_SIZE) block + 1)) := by rw [hs]
          _ = List.range' start (block + 1 - start) := by
              rw [List.range'_append_1]
              congr 1
              omega
      · intro p hp
        rcases hp with hp | hp
        · constructor
          · rw [hp]
            exact hto1
          · rw [hp]
            simp only
            omega
        · exact ih2 p hp
    · have h0 : block + 1 - start = 0 := by omega
      simp [pageLoopAux, if_neg hsb, h0]

theorem findFirstBelow_spec (cached : Cache) (block : ℕ) :
    ∀ l : List ℕ, l.Sorted (· ≥ ·) → (∀ b ∈ l, b ∈ dictKeys cached) →
      ((∀ pb s, findFirstBelow cached block l = some (pb, s) →
        pb < block ∧ pb ∈ l ∧ dictGet cached pb = some s ∧
        ∀ b ∈ l, b < block → b ≤ pb)
      ∧ (findFirstBelow cached block l = none → ∀ b ∈ l, ¬ b < block)) := by
  intro l
  induction l with
  | nil =>
    intro _ _
    constructor
    · intro pb s hsome
      simp [findFirstBelow] at hsome
    · intro _ b hb
      simp at hb
  | cons eb rest ih =>
    intro hsort hsub
    have hsort' : rest.Sorted (· ≥ ·) := (List.sorted_cons.mp hsort).2
    have hhead : ∀ b ∈ rest, eb ≥ b := (List.sorted_cons.mp hsort).1
    have hsub' : ∀ b ∈ rest, b ∈ dictKeys cached := fun b hb => hsub b (List.mem_cons_of_mem _ hb)
    obtain ⟨ih1, ih2⟩ := ih hsort' hsub'
    by_cases hlt : eb < block
    · constructor
      · intro pb s hsome
        simp only [findFirstBelow, if_pos hlt, Option.some_inj] at hsome
        obtain ⟨v, hv⟩ := dictGet_isSome_of_mem_keys (hsub eb (List.mem_cons_self _ _))
        have hpb : pb = eb := by
          have := congrArg Prod.fst hsome
          simpa using this.symm
        have hs : s = (dictGet cached eb).getD [] := by
          have := congrArg Prod.snd hsome
          simpa using this.symm
        subst hpb
        refine ⟨hlt, List.mem_cons_self _ _, ?_, ?_⟩
        · rw [hs, hv]
          simp
        · intro b hb _
          rcases List.mem_cons.mp hb with hb | hb
          · omega
          · exact hhead b hb
      · intro hnone
        simp [findFirstBelow, if_pos hlt] at hnone
    · constructor
      · intro pb s hsome
        simp only [findFirstBelow, if_neg hlt] at hsome
        obtain ⟨h1, h2, h3, h4⟩ := ih1 pb s hsome
        refine ⟨h1, List.mem_cons_of_mem _ h2, h3, ?_⟩
        intro b hb hbblock
        rcases List.mem_cons.mp hb with hb | hb
        · subst hb
          omega
        · exact h4 b hb hbblock
      · intro hnone
        simp only [findFirstBelow, if_neg hlt] at hnone
        intro b hb
        rcases List.mem_cons.mp hb with hb | hb
        · subst hb
          exact hlt
        · exact ih2 hnone b hb

theorem find_closest_cached_data_spec (cached : Cache) (block : ℕ) :
    (∀ pb s, find_closest_cached_data block cached = some (pb, s) →
      pb < block ∧ pb ≠ block ∧ pb ∈ dictKeys cached ∧ dictGet cached pb = some s ∧
      ∀ b ∈ dictKeys cached, b < block → b ≤ pb)
    ∧ (find_closest_cached_data block cached = none →
      ∀ b ∈ dictKeys cached, ¬ b < block) := by
  have hperm : (List.insertionSort (· ≥ ·) (dictKeys cached)).Perm (dictKeys cached) :=
    List.perm_insertionSort _ _
  have hsort : (List.insertionSort (· ≥ ·) (dictKeys cached)).Sorted (· ≥ ·) :=
    List.sorted_insertionSort _ _
  obtain ⟨h1, h2⟩ := findFirstBelow_spec cached block
    (List.insertionSort (· ≥ ·) (dictKeys cached)) hsort
    (fun b hb => hperm.mem_iff.mp hb)
  constructor
  · intro pb s hsome
    obtain ⟨ha, hb, hc, hd⟩ := h1 pb s hsome
    exact ⟨ha, Nat.ne_of_lt ha, hperm.mem_iff.mp hb, hc,
      fun b hbmem hblt => hd b (hperm.mem_iff.mpr hbmem) hblt⟩
  · intro hnone b hbmem
    exact h2 hnone b (hperm.mem_iff.mpr hbmem)

theorem insertionSort_eq_of_perm {l1 l2 : List ℕ} (h : l1.Perm l2) :
    List.insertionSort (· ≤ ·) l1 = List.insertionSort (· ≤ ·) l2 :=
  List.eq_of_perm_of_sorted
    ((List.perm_insertionSort _ l1).trans (h.trans (List.perm_insertionSort _ l2).symm))
    (List.sorted_insertionSort _ l1) (List.sorted_insertionSort _ l2)

/-- Concrete sample addresses for closed evaluations. -/
def addrA : Addr := "0x1111111111111111111111111111111111111111"

/-- Concrete sample addresses for closed evaluations. -/
def addrB : Addr := "0x2222222222222222222222222222222222222222"

/-- A concrete environment for closed evaluations: supply index one, no
transfer events anywhere, start block zero, page size 1000. -/
def envBase : SiloEnv :=
  { supply_index := fun _ => 1
    transfersNB := fun _ _ => []
    transfersB := fun _ _ => []
    start_block := 0
    PAGINATION_SIZE := 1000 }

/-- A concrete environment with page size two, exhibiting the off-by-one in
the page width. -/
def envP2 : SiloEnv :=
  { supply_index := fun _ => 1
    transfersNB := fun _ _ => []
    transfersB := fun _ _ => []
    start_block := 0
    PAGINATION_SIZE := 2 }

/-- C5: for every cache, calling get_block_balances with an empty blocks
list returns the empty mapping immediately without failure, and the result
is independent of the chain-collaborator environment, so no event fetch and
no conversion-rate query can influence it. -/
theorem C5_empty_blocks (env env2 : SiloEnv) (cached_data : Cache) :
    get_block_balances env cached_data [] = some []
    ∧ get_block_balances env2 cached_data [] = get_block_balances env cached_data [] :=
  ⟨rfl, rfl⟩

/-- C4: get_block_balances never mutates the caller-provided cached_data
mapping: the observable value of the caller-owned cache after the call
(second component of get_block_balances_full) is the value passed in, and
repeating the reconstruction against that post-call cache with the same
target blocks yields the identical result. -/
theorem C4_no_mutation (env : SiloEnv) (cached_data : Cache) (blocks : List ℕ) :
    (get_block_balances_full env cached_data blocks).2 = cached_data
    ∧ get_block_balances env ((get_block_balances_full env cached_data blocks).2) blocks
      = get_block_balances env cached_data blocks :=
  ⟨rfl, rfl⟩

/-- C10: a transfer event whose sender and receiver are both the null
address is processed as a mint: the processing equals the mint branch
(add_to_bals on the receiver, here the null address), so the burn branch is
not taken, and the converted amount is credited to the null address. -/
theorem C10_double_null (value : ℕ) (bals : Bals) (supply_index : ℚ) :
    process_transfer_event ⟨NULL_ADDRESS, NULL_ADDRESS, value⟩ bals supply_index
      = add_to_bals bals NULL_ADDRESS ((value : ℚ) * supply_index) 18
    ∧ dictGet (process_transfer_event ⟨NULL_ADDRESS, NULL_ADDRESS, value⟩ bals supply_index)
        NULL_ADDRESS
      = some (pyRound ((dictGet bals NULL_ADDRESS).getD 0
          + pyRound ((value : ℚ) * supply_index / 10 ^ 18))) := by
  have h1 : process_transfer_event ⟨NULL_ADDRESS, NULL_ADDRESS, value⟩ bals supply_index
      = add_to_bals bals NULL_ADDRESS ((value : ℚ) * supply_index) 18 := by
    simp [process_transfer_event, is_null_address]
  refine ⟨h1, ?_⟩
  rw [h1, add_to_bals_eq, dictGet_dictSet_self]

/-- C8: a mint event (sender null) of raw value ten to the eighteenth at
supply index one, applied to a balance map in which the receiver is absent,
leaves the receiver with a balance of exactly one: the division by ten to
the decimals exactly cancels the scale. -/
theorem C8_mint_exact (receiver : Addr) (bals : Bals)
    (h : dictGet bals receiver = none) :
    dictGet (process_transfer_event ⟨NULL_ADDRESS, receiver, 10 ^ 18⟩ bals 1) receiver
      = some 1 := by
  have h1 : process_transfer_event ⟨NULL_ADDRESS, receiver, 10 ^ 18⟩ bals 1
      = add_to_bals bals receiver (((10 ^ 18 : ℕ) : ℚ) * 1) 18 := by
    simp [process_transfer_event, is_null_address]
  rw [h1, add_to_bals_eq, dictGet_dictSet_self, h]
  have hv : (((10 ^ 18 : ℕ) : ℚ) * 1) / 10 ^ 18 = 1 := by norm_num
  rw [hv, pyRound_one]
  simp only [Option.getD_none, zero_add, pyRound_one]

/-- Witness for C8 at a concrete receiver and the empty balance map. -/
theorem C8_mint_exact_witness :
    dictGet ([] : Bals) addrB = none
    ∧ dictGet (process_transfer_event ⟨NULL_ADDRESS, addrB, 10 ^ 18⟩ [] 1) addrB = some 1 :=
  ⟨rfl, C8_mint_exact addrB [] rfl⟩

/-- C2: evaluation of the code at the failing input. The claim says that
with a non-empty cache containing no block strictly below the target, the
processing falls back to the configured start block with empty balances and
completes without an exception. In the source, find_closest_cached_data
returns None in that situation and line 56 unpacks the None without a
check, raising a TypeError; in the model the whole call yields none. -/
theorem C2_lookup_eval : get_block_balances envBase [(100, [])] [50] = none := rfl

/-- C1: evaluation of the code at the failing input. The claim says a
transfer of 5 times ten to the seventeenth shares at conversion rate two
from A to B (both non-null) makes A lose one and B gain one. The source
instead calls add_to_bals on the sender and subtract_from_bals on the
receiver (lines 158-166), so A GAINS one and B, starting absent, is clamped
at zero rather than gaining one. -/
theorem C1_transfer_eval :
    process_transfer_event ⟨addrA, addrB, 500000000000000000⟩ [] 2
      = [(addrA, 1), (addrB, 0)] := by
  have hA : is_null_address addrA = false := by simp [is_null_address, addrA, NULL_ADDRESS]
  have hB : is_null_address addrB = false := by simp [is_null_address, addrB, NULL_ADDRESS]
  have hAB : addrA ≠ addrB := by simp [addrA, addrB]
  norm_num [process_transfer_event, hA, hB, hAB, add_to_bals_eq, subtract_from_bals_eq,
    dictGet, dictSet, pyRound_one, pyRound_zero]

/-- C3 (amended): for every environment, supply index, starting balances,
start block and target block, the paging loop fetches transfer events in
consecutive inclusive block ranges whose concatenation is exactly the
interval from start to target (each block covered exactly once), and every
page (from_block, to_block) satisfies from_block ≤ to_block and
to_block - from_block ≤ PAGINATION_SIZE, that is, a page contains at most
PAGINATION_SIZE + 1 blocks. The original bound of at most PAGINATION_SIZE
blocks per page fails, see the counterexample. -/
theorem C3_pages (env : SiloEnv) (si : ℚ) (bals : Bals) (start block : ℕ) :
    (((pageLoop env si bals start block).2.map
        (fun p => List.range' p.1 (p.2 + 1 - p.1))).flatten
        = List.range' start (block + 1 - start))
    ∧ ∀ p ∈ (pageLoop env si bals start block).2,
        p.1 ≤ p.2 ∧ p.2 - p.1 ≤ env.PAGINATION_SIZE :=
  pageLoopAux_spec env si (block + 1 - start) bals start block (le_refl _)

/-- C3 counterexample: with PAGINATION_SIZE two, start zero and target
five, the loop fetches the page from block 0 to block 2, which contains
three blocks, more than PAGINATION_SIZE: pages are one block wider than
the constant. -/
theorem C3_counterexample :
    ¬ ∀ p ∈ (pageLoop envP2 1 [] 0 5).2,
        p.2 + 1 - p.1 ≤ envP2.PAGINATION_SIZE := by
  decide

/-- C6: with a non-negative supply index, folding any sequence of transfer
events over a balance map whose entries are all non-negative keeps every
balance non-negative; moreover each single operation preserves
non-negativity, and a subtraction whose result would go negative stores a
balance of exactly zero. -/
theorem C6_nonneg (supply_index : ℚ) (ts : List Transfer) (bals : Bals)
    (hsi : 0 ≤ supply_index) (hb : BalsNonneg bals) :
    BalsNonneg (applyTransfers ts bals supply_index)
    ∧ ∀ (d : Bals) (a : Addr) (v : ℚ) (dec : ℕ),
        BalsNonneg d →
        ((dictGet d a).getD 0 - pyRound (v / 10 ^ dec) < 0 →
          dictGet (subtract_from_bals d a v dec) a = some 0)
        ∧ BalsNonneg (subtract_from_bals d a v dec)
        ∧ (0 ≤ v → BalsNonneg (add_to_bals d a v dec)) := by
  refine ⟨applyTransfers_nonneg ts hb hsi, ?_⟩
  intro d a v dec hd
  exact ⟨fun h => subtract_from_bals_clamp h, subtract_from_bals_nonneg hd,
    fun hv => add_to_bals_nonneg hd hv⟩

/-- Witness for C6 at supply index one, a single burn event that
over-subtracts from the empty balance map. -/
theorem C6_nonneg_witness :
    (0:ℚ) ≤ 1 ∧ BalsNonneg ([] : Bals)
    ∧ (BalsNonneg (applyTransfers [⟨addrA, NULL_ADDRESS, 10 ^ 18⟩] [] 1)
      ∧ ∀ (d : Bals) (a : Addr) (v : ℚ) (dec : ℕ),
          BalsNonneg d →
          ((dictGet d a).getD 0 - pyRound (v / 10 ^ dec) < 0 →
            dictGet (subtract_from_bals d a v dec) a = some 0)
          ∧ BalsNonneg (subtract_from_bals d a v dec)
          ∧ (0 ≤ v → BalsNonneg (add_to_bals d a v dec))) :=
  ⟨zero_le_one, by simp [BalsNonneg],
    C6_nonneg 1 [⟨addrA, NULL_ADDRESS, 10 ^ 18⟩] [] zero_le_one (by simp [BalsNonneg])⟩

/-- C7: the result of get_block_balances is invariant under permutation of
the requested blocks list, because the blocks are sorted internally before
processing. -/
theorem C7_perm (env : SiloEnv) (cached_data : Cache) (blocks1 blocks2 : List ℕ)
    (h : blocks1.Perm blocks2) :
    get_block_balances env cached_data blocks1
      = get_block_balances env cached_data blocks2 := by
  unfold get_block_balances
  have hl := h.length_eq
  have hempty : blocks1.isEmpty = blocks2.isEmpty := by
    cases blocks1 <;> cases blocks2 <;> simp_all
  rw [hempty, insertionSort_eq_of_perm h]

/-- Witness for C7 on the block lists [10, 5] and [5, 10]. -/
theorem C7_perm_witness :
    ([10, 5] : List ℕ).Perm [5, 10]
    ∧ get_block_balances envBase [] [10, 5] = get_block_balances envBase [] [5, 10] :=
  ⟨by decide, C7_perm envBase [] [10, 5] [5, 10] (by decide)⟩

/-- C9: for every non-empty cache and target block, when the lookup returns
an entry it is a cached key strictly below the target (so an entry equal to
the target is never reused), carries exactly the snapshot stored in the
cache for that key, and is maximal among all cached keys below the target;
when the lookup returns None, no cached key lies below the target. In the
model the deepcopy of the returned snapshot is value copying. -/
theorem C9_closest (cached_data : Cache) (block : ℕ) (_hne : cached_data ≠ []) :
    (∀ pb s, find_closest_cached_data block cached_data = some (pb, s) →
      pb < block ∧ pb ≠ block ∧ pb ∈ dictKeys cached_data
      ∧ dictGet cached_data pb = some s
      ∧ ∀ b ∈ dictKeys cached_data, b < block → b ≤ pb)
    ∧ (find_closest_cached_data block cached_data = none →
      ∀ b ∈ dictKeys cached_data, ¬ b < block) :=
  find_closest_cached_data_spec cached_data block

/-- Witness for C9 on the cache with entries at blocks 3 and 7 and target
block 5. -/
theorem C9_closest_witness :
    ([(3, ([] : Bals)), (7, [])] : Cache) ≠ []
    ∧ ((∀ pb s,
        find_closest_cached_data 5 [(3, ([] : Bals)), (7, [])] = some (pb, s) →
        pb < 5 ∧ pb ≠ 5 ∧ pb ∈ dictKeys ([(3, ([] : Bals)), (7, [])] : Cache)
        ∧ dictGet ([(3, ([] : Bals)), (7, [])] : Cache) pb = some s
        ∧ ∀ b ∈ dictKeys ([(3, ([] : Bals)), (7, [])] : Cache), b < 5 → b ≤ pb)
      ∧ (find_closest_cached_data 5 [(3, ([] : Bals)), (7, [])] = none →
        ∀ b ∈ dictKeys ([(3, ([] : Bals)), (7, [])] : Cache), ¬ b < 5)) :=
  ⟨by simp, C9_closest [(3, []), (7, [])] 5 (by simp)⟩
